import Mathlib

/-!
Verification of the post-loading module of a markdown blog front end.

The module under study exposes two read operations over a flat directory of
markdown content files:

  getAllPosts  : enumerates the posts directory, parses every file's front
                 matter, builds one Post per file (slug = file name with a
                 trailing ".md" stripped), and sorts the result by the date
                 string using the comparator (a, b) => a.date < b.date ? 1 : -1
                 (descending lexicographic order); the sort is embedded as
                 Node/V8 executes Array.prototype.sort on small arrays
                 (TimSort's run detection plus binary insertion);
  getPostBySlug: resolves slug + ".md" inside the posts directory, returns
                 null when the file is absent, otherwise parses it the same
                 way and returns the Post.

The backing store is modelled as an optional list of directory entries
(none = the posts directory itself does not exist).  The third-party
front-matter parser (gray-matter) is external to the repository and is
modelled by its contract: it splits a well-formed file into a metadata
record and a body, and fails on a malformed metadata block; the module does
not guard that failure.  JavaScript object fields read from the untyped
metadata may be undefined, which is modelled with Option.
-/

/-- Front-matter metadata of a content file, as the front-matter parser
returns it.  Every field is optional at runtime: a key that is absent from
the metadata block reads as the JavaScript value undefined, modelled here
as none. -/
structure FrontMatter where
  title : Option String
  date : Option String
  excerpt : Option String
  deriving Repr, DecidableEq

/-- Raw contents of a content file, abstracted to the outcome of
front-matter parsing.  A file with no metadata block at all parses as
wellFormed with all-none metadata and the whole text as body. -/
inductive RawContent where
  | wellFormed (data : FrontMatter) (body : String)
  | malformed (msg : String)
  deriving Repr, DecidableEq

/-- Modelled from the spec: the third-party front-matter parser (the
matter call) is not part of the repository; per the spec it separates the
leading structured metadata from the trailing body, and a per-file parse
failure on a malformed metadata block is not guarded by the module, so it
surfaces as an exception (modelled with Except.error). -/
def matter : RawContent → Except String (FrontMatter × String)
  | .wellFormed d b => .ok (d, b)
  | .malformed m => .error m

/-- One entry of the posts directory: a file name plus the file's raw
contents. -/
structure FileEntry where
  name : String
  raw : RawContent
  deriving Repr, DecidableEq

/-- State of the backing store: none when the posts directory does not
exist, otherwise the list of directory entries. -/
abbrev PostsDir := Option (List FileEntry)

/-- The Post record.  The source interface declares title and date as
string and excerpt as optional, but the construction sites copy
data.title / data.date / data.excerpt straight from the untyped metadata,
which is undefined whenever the key is missing; Option models the actual
runtime value of each field. -/
structure Post where
  slug : String
  title : Option String
  date : Option String
  content : String
  excerpt : Option String
  deriving Repr, DecidableEq

/-- Embeds fileName.replace with the anchored pattern matching a trailing
".md": if the character sequence ends with ".md" the last three characters
are removed, otherwise the name is unchanged. -/
def stripMd (fileName : String) : String :=
  if ".md".data.isSuffixOf fileName.data then
    { data := fileName.data.take (fileName.data.length - 3) }
  else fileName

/-- The object literal built by both operations from a slug and a parsed
file. -/
def mkPost (slug : String) (data : FrontMatter) (content : String) : Post :=
  { slug := slug
    content := content
    title := data.title
    date := data.date
    excerpt := data.excerpt }

/-- Lexicographic comparison of character sequences by code unit, the
semantics of the JavaScript relational operator on two strings: a proper
prefix is below its extensions, otherwise the first differing position
decides. -/
def charsLt : List Char → List Char → Bool
  | _, [] => false
  | [], _ :: _ => true
  | a :: as, b :: bs =>
    if a.toNat < b.toNat then true
    else if b.toNat < a.toNat then false
    else charsLt as bs

/-- Embeds the JavaScript comparison a.date < b.date: lexicographic when
both fields are strings, false whenever either side is undefined. -/
def dateLt : Option String → Option String → Bool
  | some a, some b => charsLt a.data b.data
  | _, _ => false

/-- The order the sort comparator (a, b) => a.date < b.date ? 1 : -1
establishes between consecutive elements: a may stay before b exactly when
the comparator does not return 1, that is when a.date < b.date is false. -/
def dateKeep (a b : Post) : Prop := dateLt a.date b.date = false

instance : DecidableRel dateKeep := fun a b => by
  unfold dateKeep; infer_instance

/-- One invocation of the source's sort comparator
(a, b) => a.date < b.date ? 1 : -1, represented by the sign of its result:
true exactly when the comparator returns a negative value.  It returns 1
precisely when a.date < b.date holds and -1 otherwise; it never returns
0, so it is inconsistent in the ECMAScript sense whenever two dates are
equal or one is undefined. -/
def cmpIsNeg (a b : Post) : Bool := ! dateLt a.date b.date

/-- Run-extension loop of CountAndMakeRun in V8's TimSort (the sort that
Node's Array.prototype.sort executes): after the first two elements fix
the direction, the run keeps growing while every next element compares in
that same direction against its predecessor — a negative comparator
result for a descending run, a non-negative one for an ascending run.
Returns the extension together with the untouched remainder. -/
def countRunAux (desc : Bool) (prev : Post) : List Post → List Post × List Post
  | [] => ([], [])
  | x :: xs =>
    if cmpIsNeg x prev = desc then
      (x :: (countRunAux desc x xs).1, (countRunAux desc x xs).2)
    else ([], x :: xs)

/-- Completion of CountAndMakeRun: the first comparison decides the run
direction, and a descending run is reversed in place, so the produced run
is ordered for the comparator. -/
def makeRun (desc : Bool) (a b : Post) (rest : List Post) : List Post :=
  if desc then (a :: b :: (countRunAux desc b rest).1).reverse
  else a :: b :: (countRunAux desc b rest).1

/-- Embeds CountAndMakeRun of V8's TimSort on the whole array: detects the
initial run (reversing it when descending) and returns it together with
the elements after it. -/
def countAndMakeRun : List Post → List Post × List Post
  | [] => ([], [])
  | [a] => ([a], [])
  | a :: b :: rest =>
    (makeRun (cmpIsNeg b a) a b rest, (countRunAux (cmpIsNeg b a) b rest).2)

/-- Placeholder element for out-of-range loads; the binary-search loop
below only probes indices strictly below its right bound, which never
exceeds the list length, so it is never actually read. -/
def dfltPost : Post :=
  { slug := "", title := none, date := none, content := "", excerpt := none }

/-- Binary-search loop of BinaryInsertionSort in V8's TimSort: probes the
midpoint left + (right - left) / 2 and moves the right bound down to it
when the comparator result for (pivot, element) is negative, the left
bound up past it otherwise.  The loop runs while left < right; the gap
shrinks every iteration, so the fuel argument (instantiated with the list
length, an upper bound on the initial gap) never runs out. -/
def bisectAux (pivot : Post) (l : List Post) : Nat → Nat → Nat → Nat
  | 0, left, _ => left
  | fuel + 1, left, right =>
    if left < right then
      if cmpIsNeg pivot (l.getD (left + (right - left) / 2) dfltPost) then
        bisectAux pivot l fuel left (left + (right - left) / 2)
      else
        bisectAux pivot l fuel (left + (right - left) / 2 + 1) right
    else left

/-- Insertion index of a pivot into the ordered prefix, as V8's
BinaryInsertionSort computes it. -/
def bisect (pivot : Post) (sorted : List Post) : Nat :=
  bisectAux pivot sorted sorted.length 0 sorted.length

/-- Insertion loop of BinaryInsertionSort: each remaining element is
placed into the already-ordered prefix at the index the binary search
returns (the in-place shift of the tail corresponds to list insertion). -/
def binaryInsertLoop : List Post → List Post → List Post
  | sorted, [] => sorted
  | sorted, x :: xs => binaryInsertLoop (sorted.insertIdx (bisect x sorted) x) xs

/-- Embeds allPostsData.sort with the date comparator as Node's V8 engine
executes it.  The comparator never returns 0, so whenever two dates are
equal or one is undefined it is inconsistent and ECMAScript leaves the
resulting order implementation-defined; the deployed implementation is
V8's TimSort.  For arrays of fewer than 64 elements ComputeMinRunLength
returns the array length, so TimSort degenerates to exactly this: detect
the initial run (reversing a descending one), then binary-insert every
remaining element into it — the merge machinery never runs.  That path is
embedded here; every concrete store in this development is far below that
bound, and the theorems below rely only on properties (the result is a
permutation of the input, and it is pairwise ordered whenever every date
is present) on which the merge path of longer arrays agrees. -/
def sortByDateDesc (ps : List Post) : List Post :=
  binaryInsertLoop (countAndMakeRun ps).1 (countAndMakeRun ps).2

/-- Embeds fileNames.map over the body of getAllPosts: for each entry in
directory order, strip the extension, read and parse the file, and build
the Post.  An exception thrown while processing one entry propagates, so
the whole map fails on the first malformed file. -/
def readPosts : List FileEntry → Except String (List Post)
  | [] => .ok []
  | f :: fs =>
    match matter f.raw with
    | .error e => .error e
    | .ok (data, content) =>
      match readPosts fs with
      | .error e => .error e
      | .ok rest => .ok (mkPost (stripMd f.name) data content :: rest)

/-- Embeds getAllPosts: an absent posts directory yields the empty list;
otherwise every entry is read into a Post and the list is sorted by
descending date string. -/
def getAllPosts (dir : PostsDir) : Except String (List Post) :=
  match dir with
  | none => .ok []
  | some files => (readPosts files).map sortByDateDesc

/-- Embeds getPostBySlug: the expected file name is slug + ".md"; when no
such entry exists (in particular when the directory itself is absent) the
result is null (none), otherwise the entry is parsed exactly like in
getAllPosts. -/
def getPostBySlug (dir : PostsDir) (slug : String) : Except String (Option Post) :=
  let fileName := slug ++ ".md"
  match dir with
  | none => .ok none
  | some files =>
    match files.find? (fun f => f.name == fileName) with
    | none => .ok none
    | some f =>
      match matter f.raw with
      | .error e => .error e
      | .ok (data, content) => .ok (some (mkPost slug data content))

/-- Embeds fs.existsSync on a path inside the posts directory: true exactly
when the directory exists and contains an entry of that name.  Reads the
store state and leaves it unchanged. -/
def existsSyncS (fileName : String) : StateM PostsDir Bool := fun dir =>
  (match dir with
   | none => false
   | some files => files.any (fun f => f.name == fileName), dir)

/-- Embeds fs.readFileSync on a path inside the posts directory: returns
the entry's raw contents, or an error when the file is missing.  Reads the
store state and leaves it unchanged. -/
def readFileS (fileName : String) : StateM PostsDir (Except String RawContent) := fun dir =>
  (match dir with
   | none => .error "ENOENT"
   | some files =>
     match files.find? (fun f => f.name == fileName) with
     | none => .error "ENOENT"
     | some f => .ok f.raw, dir)

/-- Stateful rendering of getPostBySlug, built from the file-system
primitives so that its (absence of) effect on the backing store is explicit
rather than assumed. -/
def getPostBySlugS (slug : String) : StateM PostsDir (Except String (Option Post)) := fun dir =>
  let fileName := slug ++ ".md"
  match existsSyncS fileName dir with
  | (false, dir1) => (.ok none, dir1)
  | (true, dir1) =>
    match readFileS fileName dir1 with
    | (.error e, dir2) => (.error e, dir2)
    | (.ok raw, dir2) =>
      match matter raw with
      | .error e => (.error e, dir2)
      | .ok (data, content) => (.ok (some (mkPost slug data content)), dir2)

/-- Relation between a directory entry and the Post that the map body of
getAllPosts builds from it. -/
def parsesTo (f : FileEntry) (p : Post) : Prop :=
  ∃ d c, matter f.raw = Except.ok (d, c) ∧ p = mkPost (stripMd f.name) d c

lemma readPosts_ok_iff {files : List FileEntry} {ps : List Post} :
    readPosts files = Except.ok ps ↔ List.Forall₂ parsesTo files ps := by
  induction files generalizing ps with
  | nil =>
    simp only [readPosts, List.forall₂_nil_left_iff]
    exact ⟨fun h => (Except.ok.inj h).symm, fun h => by rw [h]⟩
  | cons f fs ih =>
    cases hm : matter f.raw with
    | error e =>
      simp only [readPosts, hm]
      constructor
      · intro h; cases h
      · intro h
        rcases List.forall₂_cons_left_iff.mp h with ⟨p, ps', hfp, -, -⟩
        rcases hfp with ⟨d, c, hdc, -⟩
        rw [hm] at hdc
        cases hdc
    | ok dc =>
      obtain ⟨d, c⟩ := dc
      cases hr : readPosts fs with
      | error e =>
        simp only [readPosts, hm, hr]
        constructor
        · intro h; cases h
        · intro h
          rcases List.forall₂_cons_left_iff.mp h with ⟨p, ps', -, hfs, -⟩
          rw [ih.mpr hfs] at hr
          cases hr
      | ok rest =>
        simp only [readPosts, hm, hr]
        constructor
        · intro h
          have hps : mkPost (stripMd f.name) d c :: rest = ps := Except.ok.inj h
          rw [← hps]
          exact List.Forall₂.cons ⟨d, c, hm, rfl⟩ (ih.mp hr)
        · intro h
          rcases List.forall₂_cons_left_iff.mp h with ⟨p, ps', hfp, hfs, rfl⟩
          rcases hfp with ⟨d', c', hdc, hp⟩
          rw [hm] at hdc
          cases Except.ok.inj hdc
          have hrest := ih.mpr hfs
          rw [hr] at hrest
          rw [hp, Except.ok.inj hrest]

lemma readPosts_ok_of_forall {files : List FileEntry}
    (h : ∀ f ∈ files, ∃ d c, matter f.raw = Except.ok (d, c)) :
    ∃ ps, readPosts files = Except.ok ps := by
  induction files with
  | nil => exact ⟨[], rfl⟩
  | cons f fs ih =>
    obtain ⟨d, c, hdc⟩ := h f (List.mem_cons_self f fs)
    obtain ⟨ps, hps⟩ := ih fun g hg => h g (List.mem_cons_of_mem f hg)
    exact ⟨mkPost (stripMd f.name) d c :: ps, by simp only [readPosts, hdc, hps]⟩

lemma forall₂_exists_right {α β : Type} {R : α → β → Prop} {l : List α}
    {u : List β} (h : List.Forall₂ R l u) : ∀ b ∈ u, ∃ a ∈ l, R a b := by
  induction h with
  | nil => intro b hb; cases hb
  | cons hab _ ih =>
    intro b hb
    rcases List.mem_cons.mp hb with rfl | hb
    · exact ⟨_, List.mem_cons_self _ _, hab⟩
    · obtain ⟨a, ha, hr⟩ := ih b hb
      exact ⟨a, List.mem_cons_of_mem _ ha, hr⟩

lemma forall₂_exists_left {α β : Type} {R : α → β → Prop} {l : List α}
    {u : List β} (h : List.Forall₂ R l u) : ∀ a ∈ l, ∃ b ∈ u, R a b := by
  induction h with
  | nil => intro a ha; cases ha
  | cons hab _ ih =>
    intro a ha
    rcases List.mem_cons.mp ha with rfl | ha
    · exact ⟨_, List.mem_cons_self _ _, hab⟩
    · obtain ⟨b, hb, hr⟩ := ih a ha
      exact ⟨b, List.mem_cons_of_mem _ hb, hr⟩

lemma stripMd_append_md (base : String) : stripMd (base ++ ".md") = base := by
  have hdata : (base ++ ".md").data = base.data ++ ".md".data := rfl
  have hsuf : ".md".data.isSuffixOf (base ++ ".md").data = true := by
    rw [hdata, List.isSuffixOf_iff_suffix]
    exact List.suffix_append _ _
  unfold stripMd
  rw [if_pos hsuf, hdata]
  have hlen : (base.data ++ ".md".data).length - 3 = base.data.length := by
    rw [List.length_append]
    rfl
  rw [hlen, List.take_left]

lemma stripMd_name {f : FileEntry} {base : String} (h : f.name = base ++ ".md") :
    stripMd f.name ++ ".md" = f.name := by
  rw [h, stripMd_append_md]

lemma find?_name_of_nodup {files : List FileEntry} {f : FileEntry}
    (hnd : (files.map FileEntry.name).Nodup) (hf : f ∈ files) :
    files.find? (fun g => g.name == f.name) = some f := by
  induction files with
  | nil => cases hf
  | cons g gs ih =>
    rcases List.mem_cons.mp hf with rfl | hf
    · exact List.find?_cons_of_pos gs (by simp)
    · have hgf : g.name ≠ f.name := by
        intro he
        exact (List.nodup_cons.mp hnd).1 (he ▸ List.mem_map_of_mem FileEntry.name hf)
      rw [List.find?_cons_of_neg gs (by simp [hgf])]
      exact ih (List.nodup_cons.mp hnd).2 hf

lemma charsLt_false_or : ∀ x y : List Char, charsLt x y = false ∨ charsLt y x = false := by
  intro x
  induction x with
  | nil =>
    intro y
    cases y with
    | nil => left; rfl
    | cons b bs => right; rfl
  | cons a as ih =>
    intro y
    cases y with
    | nil => left; rfl
    | cons b bs =>
      by_cases hab : a.toNat < b.toNat
      · right
        simp [charsLt, Nat.lt_asymm hab, hab]
      · by_cases hba : b.toNat < a.toNat
        · left
          simp [charsLt, hab, hba]
        · rcases ih bs with h | h
          · left
            simp [charsLt, hab, hba, h]
          · right
            simp [charsLt, hab, hba, h]

lemma charsLt_neg_trans : ∀ x y z : List Char,
    charsLt x y = false → charsLt y z = false → charsLt x z = false := by
  intro x
  induction x with
  | nil =>
    intro y z h1 h2
    cases y with
    | cons b bs => cases h1
    | nil =>
      cases z with
      | nil => rfl
      | cons c cs => cases h2
  | cons a as ih =>
    intro y z h1 h2
    cases z with
    | nil => rfl
    | cons c cs =>
      cases y with
      | nil => cases h2
      | cons b bs =>
        simp only [charsLt] at h1 h2 ⊢
        by_cases hab : a.toNat < b.toNat
        · rw [if_pos hab] at h1
          cases h1
        · rw [if_neg hab] at h1
          by_cases hbc : b.toNat < c.toNat
          · rw [if_pos hbc] at h2
            cases h2
          · rw [if_neg hbc] at h2
            have hba : b.toNat ≤ a.toNat := Nat.le_of_not_lt hab
            have hcb : c.toNat ≤ b.toNat := Nat.le_of_not_lt hbc
            have hac : ¬ a.toNat < c.toNat := Nat.not_lt.mpr (Nat.le_trans hcb hba)
            rw [if_neg hac]
            by_cases hca : c.toNat < a.toNat
            · rw [if_pos hca]
            · rw [if_neg hca]
              have hba2 : ¬ b.toNat < a.toNat := fun h' =>
                hca (Nat.lt_of_le_of_lt hcb h')
              rw [if_neg hba2] at h1
              have hcb2 : ¬ c.toNat < b.toNat := fun h' =>
                hca (Nat.lt_of_lt_of_le h' hba)
              rw [if_neg hcb2] at h2
              exact ih bs cs h1 h2

lemma dateKeep_trans_of_some {a b c : Post} (hb : b.date.isSome)
    (h1 : dateKeep a b) (h2 : dateKeep b c) : dateKeep a c := by
  unfold dateKeep dateLt at *
  cases ha : a.date with
  | none =>
    cases hc : c.date with
    | none => rfl
    | some z => rfl
  | some x =>
    cases hc : c.date with
    | none => rfl
    | some z =>
      obtain ⟨y, hy⟩ := Option.isSome_iff_exists.mp hb
      rw [ha, hy] at h1
      rw [hy, hc] at h2
      exact charsLt_neg_trans x.data y.data z.data h1 h2

lemma dateLt_asymm : ∀ {x y : Option String}, dateLt x y = true → dateLt y x = false := by
  intro x y h
  cases x with
  | none => simp [dateLt] at h
  | some a =>
    cases y with
    | none => simp [dateLt] at h
    | some b =>
      simp only [dateLt] at h ⊢
      rcases charsLt_false_or a.data b.data with h' | h'
      · rw [h'] at h
        cases h
      · exact h'

lemma dateKeep_of_cmpIsNeg {p q : Post} (h : cmpIsNeg p q = true) : dateKeep p q := by
  unfold cmpIsNeg at h
  unfold dateKeep
  cases hb : dateLt p.date q.date
  · rfl
  · rw [hb] at h
    cases h

lemma dateLt_of_cmpIsNeg_false {p q : Post} (h : cmpIsNeg p q = false) :
    dateLt p.date q.date = true := by
  unfold cmpIsNeg at h
  cases hb : dateLt p.date q.date
  · rw [hb] at h
    cases h
  · rfl

lemma chain'_pairwise_dateKeep : ∀ l : List Post, (∀ p ∈ l, p.date.isSome) →
    List.Chain' dateKeep l → l.Pairwise dateKeep := by
  intro l
  induction l with
  | nil => intro _ _; exact List.Pairwise.nil
  | cons a l ih =>
    intro hl hc
    have hc' : List.Chain' dateKeep l := by
      cases l with
      | nil => exact List.chain'_nil
      | cons b l' => exact (List.chain'_cons.mp hc).2
    have hp := ih (fun p hp => hl p (List.mem_cons_of_mem a hp)) hc'
    refine List.Pairwise.cons ?_ hp
    intro x hx
    cases l with
    | nil => cases hx
    | cons b l' =>
      have hab : dateKeep a b := (List.chain'_cons.mp hc).1
      rcases List.mem_cons.mp hx with rfl | hx'
      · exact hab
      · exact dateKeep_trans_of_some (hl b (List.mem_cons_of_mem a (List.mem_cons_self b l')))
          hab ((List.pairwise_cons.mp hp).1 x hx')

lemma countRunAux_append (desc : Bool) :
    ∀ (prev : Post) (xs : List Post),
      (countRunAux desc prev xs).1 ++ (countRunAux desc prev xs).2 = xs := by
  intro prev xs
  induction xs generalizing prev with
  | nil => rfl
  | cons x xs ih =>
    simp only [countRunAux]
    by_cases h : cmpIsNeg x prev = desc
    · simp only [if_pos h, List.cons_append, ih x]
    · simp only [if_neg h, List.nil_append]

lemma countRunAux_chain (desc : Bool) :
    ∀ (prev : Post) (xs : List Post),
      List.Chain (fun p q => cmpIsNeg q p = desc) prev (countRunAux desc prev xs).1 := by
  intro prev xs
  induction xs generalizing prev with
  | nil => exact List.Chain.nil
  | cons x xs ih =>
    simp only [countRunAux]
    by_cases h : cmpIsNeg x prev = desc
    · simp only [if_pos h]
      exact List.Chain.cons h (ih x)
    · simp only [if_neg h]
      exact List.Chain.nil

lemma countAndMakeRun_cons_true {a b : Post} {rest : List Post}
    (h : cmpIsNeg b a = true) :
    countAndMakeRun (a :: b :: rest) =
      ((a :: b :: (countRunAux true b rest).1).reverse,
        (countRunAux true b rest).2) := by
  simp [countAndMakeRun, makeRun, h]

lemma countAndMakeRun_cons_false {a b : Post} {rest : List Post}
    (h : cmpIsNeg b a = false) :
    countAndMakeRun (a :: b :: rest) =
      (a :: b :: (countRunAux false b rest).1, (countRunAux false b rest).2) := by
  simp [countAndMakeRun, makeRun, h]

lemma countAndMakeRun_perm (ps : List Post) :
    List.Perm ((countAndMakeRun ps).1 ++ (countAndMakeRun ps).2) ps := by
  cases ps with
  | nil => exact List.Perm.refl []
  | cons a t =>
    cases t with
    | nil => exact List.Perm.refl [a]
    | cons b rest =>
      cases h : cmpIsNeg b a with
      | true =>
        rw [countAndMakeRun_cons_true h]
        have happ := countRunAux_append true b rest
        refine ((List.reverse_perm _).append_right _).trans ?_
        rw [List.cons_append, List.cons_append, happ]
      | false =>
        rw [countAndMakeRun_cons_false h]
        have happ := countRunAux_append false b rest
        rw [List.cons_append, List.cons_append, happ]

lemma pairwise_countAndMakeRun (ps : List Post) (hl : ∀ p ∈ ps, p.date.isSome) :
    (countAndMakeRun ps).1.Pairwise dateKeep := by
  cases ps with
  | nil => exact List.Pairwise.nil
  | cons a t =>
    cases t with
    | nil => exact List.pairwise_singleton dateKeep a
    | cons b rest =>
      cases hdesc : cmpIsNeg b a with
      | true =>
        have hchain := countRunAux_chain true b rest
        have hsub : ∀ p ∈ a :: b :: (countRunAux true b rest).1,
            p ∈ a :: b :: rest := by
          intro p hp
          rcases List.mem_cons.mp hp with hpa | hp
          · rw [hpa]; exact List.mem_cons_self _ _
          rcases List.mem_cons.mp hp with hpb | hp
          · rw [hpb]; exact List.mem_cons_of_mem _ (List.mem_cons_self _ _)
          · refine List.mem_cons_of_mem _ (List.mem_cons_of_mem _ ?_)
            rw [← countRunAux_append true b rest]
            exact List.mem_append_left _ hp
        rw [countAndMakeRun_cons_true hdesc]
        apply chain'_pairwise_dateKeep
        · intro p hp
          exact hl p (hsub p (List.mem_reverse.mp hp))
        · rw [List.chain'_reverse]
          show List.Chain (flip dateKeep) a (b :: (countRunAux true b rest).1)
          rw [List.chain_cons]
          refine ⟨dateKeep_of_cmpIsNeg hdesc, ?_⟩
          exact hchain.imp fun p q h => dateKeep_of_cmpIsNeg h
      | false =>
        have hchain := countRunAux_chain false b rest
        have hsub : ∀ p ∈ a :: b :: (countRunAux false b rest).1,
            p ∈ a :: b :: rest := by
          intro p hp
          rcases List.mem_cons.mp hp with hpa | hp
          · rw [hpa]; exact List.mem_cons_self _ _
          rcases List.mem_cons.mp hp with hpb | hp
          · rw [hpb]; exact List.mem_cons_of_mem _ (List.mem_cons_self _ _)
          · refine List.mem_cons_of_mem _ (List.mem_cons_of_mem _ ?_)
            rw [← countRunAux_append false b rest]
            exact List.mem_append_left _ hp
        rw [countAndMakeRun_cons_false hdesc]
        apply chain'_pairwise_dateKeep
        · intro p hp
          exact hl p (hsub p hp)
        · show List.Chain dateKeep a (b :: (countRunAux false b rest).1)
          rw [List.chain_cons]
          constructor
          · unfold dateKeep
            exact dateLt_asymm (dateLt_of_cmpIsNeg_false hdesc)
          · refine hchain.imp fun p q h => ?_
            unfold dateKeep
            exact dateLt_asymm (dateLt_of_cmpIsNeg_false h)

lemma getD_eq_getElem_of_lt {α : Type} (l : List α) (d : α) {n : Nat}
    (h : n < l.length) : l.getD n d = l[n] := by
  simp [List.getElem?_eq_getElem h]

lemma insertIdx_eq_take_drop {α : Type} (a : α) :
    ∀ (n : Nat) (l : List α), n ≤ l.length →
      l.insertIdx n a = l.take n ++ a :: l.drop n := by
  intro n
  induction n with
  | zero => intro l _; simp
  | succ n ih =>
    intro l h
    cases l with
    | nil => simp at h
    | cons b l' =>
      rw [List.insertIdx_succ_cons, ih l' (Nat.le_of_succ_le_succ h)]
      simp

lemma perm_insertIdx {α : Type} (a : α) {n : Nat} {l : List α} (h : n ≤ l.length) :
    List.Perm (l.insertIdx n a) (a :: l) := by
  rw [insertIdx_eq_take_drop a n l h]
  have hmid := @List.perm_middle _ a (l.take n) (l.drop n)
  rwa [List.take_append_drop] at hmid

lemma bisectAux_le (pivot : Post) (l : List Post) :
    ∀ (fuel left right : Nat), left ≤ right → bisectAux pivot l fuel left right ≤ right := by
  intro fuel
  induction fuel with
  | zero => intro left right h; exact h
  | succ fuel ih =>
    intro left right h
    simp only [bisectAux]
    by_cases hlt : left < right
    · rw [if_pos hlt]
      have hmid : left + (right - left) / 2 < right := by
        have hdiv : (right - left) / 2 < right - left :=
          Nat.div_lt_self (by omega) (by omega)
        omega
      by_cases hq : cmpIsNeg pivot (l.getD (left + (right - left) / 2) dfltPost) = true
      · rw [if_pos hq]
        exact le_trans (ih left _ (by omega)) (le_of_lt hmid)
      · rw [if_neg hq]
        exact ih _ right (by omega)
    · rw [if_neg hlt]
      exact h

lemma bisect_le_length (pivot : Post) (l : List Post) : bisect pivot l ≤ l.length :=
  bisectAux_le pivot l l.length 0 l.length (Nat.zero_le _)

lemma bisectAux_spec (pivot : Post) (l : List Post)
    (hmono : ∀ i j, i ≤ j → j < l.length →
      cmpIsNeg pivot (l.getD i dfltPost) = true →
      cmpIsNeg pivot (l.getD j dfltPost) = true) :
    ∀ (fuel left right : Nat), left ≤ right → right ≤ l.length →
      right - left ≤ fuel →
      (∀ i, i < left → cmpIsNeg pivot (l.getD i dfltPost) = false) →
      (∀ i, right ≤ i → i < l.length → cmpIsNeg pivot (l.getD i dfltPost) = true) →
      (∀ i, i < bisectAux pivot l fuel left right →
        cmpIsNeg pivot (l.getD i dfltPost) = false) ∧
      (∀ i, bisectAux pivot l fuel left right ≤ i → i < l.length →
        cmpIsNeg pivot (l.getD i dfltPost) = true) := by
  intro fuel
  induction fuel with
  | zero =>
    intro left right hlr _ hfuel hlow hhigh
    have heq : left = right := by omega
    simp only [bisectAux]
    exact ⟨hlow, fun i hi hilen => hhigh i (heq ▸ hi) hilen⟩
  | succ fuel ih =>
    intro left right hlr hrl hfuel hlow hhigh
    simp only [bisectAux]
    by_cases hlt : left < right
    · rw [if_pos hlt]
      have hdiv : (right - left) / 2 < right - left :=
        Nat.div_lt_self (by omega) (by omega)
      have hmid : left + (right - left) / 2 < right := by omega
      by_cases hq : cmpIsNeg pivot (l.getD (left + (right - left) / 2) dfltPost) = true
      · rw [if_pos hq]
        exact ih left (left + (right - left) / 2) (by omega) (by omega) (by omega)
          hlow (fun i hi hilen => hmono _ i hi hilen hq)
      · rw [if_neg hq]
        have hq' : cmpIsNeg pivot (l.getD (left + (right - left) / 2) dfltPost) = false := by
          cases hc : cmpIsNeg pivot (l.getD (left + (right - left) / 2) dfltPost)
          · rfl
          · exact absurd hc hq
        refine ih (left + (right - left) / 2 + 1) right (by omega) hrl (by omega)
          ?_ hhigh
        intro i hi
        by_cases hileft : i < left
        · exact hlow i hileft
        · cases hci : cmpIsNeg pivot (l.getD i dfltPost)
          · rfl
          · have := hmono i (left + (right - left) / 2) (by omega) (by omega) hci
            rw [hq'] at this
            cases this
    · rw [if_neg hlt]
      have heq : left = right := by omega
      exact ⟨hlow, fun i hi hilen => hhigh i (heq ▸ hi) hilen⟩

lemma bisect_spec (pivot : Post) (l : List Post)
    (hmono : ∀ i j, i ≤ j → j < l.length →
      cmpIsNeg pivot (l.getD i dfltPost) = true →
      cmpIsNeg pivot (l.getD j dfltPost) = true) :
    (∀ i, i < bisect pivot l → cmpIsNeg pivot (l.getD i dfltPost) = false) ∧
    (∀ i, bisect pivot l ≤ i → i < l.length →
      cmpIsNeg pivot (l.getD i dfltPost) = true) :=
  bisectAux_spec pivot l hmono l.length 0 l.length (Nat.zero_le _) (le_refl _)
    (by omega) (fun i hi => absurd hi (Nat.not_lt_zero i))
    (fun i hi hilen => absurd hilen (by omega))

lemma mono_of_pairwise (pivot : Post) {l : List Post}
    (hl : ∀ p ∈ l, p.date.isSome) (hp : l.Pairwise dateKeep) :
    ∀ i j, i ≤ j → j < l.length →
      cmpIsNeg pivot (l.getD i dfltPost) = true →
      cmpIsNeg pivot (l.getD j dfltPost) = true := by
  intro i j hij hj hq
  have hi : i < l.length := Nat.lt_of_le_of_lt hij hj
  rw [getD_eq_getElem_of_lt l dfltPost hi] at hq
  rw [getD_eq_getElem_of_lt l dfltPost hj]
  rcases Nat.eq_or_lt_of_le hij with rfl | hlt
  · exact hq
  · have hk : dateKeep l[i] l[j] := List.pairwise_iff_getElem.mp hp i j hi hj hlt
    obtain ⟨di, hdi⟩ := Option.isSome_iff_exists.mp (hl _ (List.getElem_mem hi))
    obtain ⟨dj, hdj⟩ := Option.isSome_iff_exists.mp (hl _ (List.getElem_mem hj))
    unfold dateKeep at hk
    unfold cmpIsNeg at hq ⊢
    rw [hdi] at hq
    rw [hdj]
    rw [hdi, hdj] at hk
    cases hpd : pivot.date with
    | none => rfl
    | some dp =>
      rw [hpd] at hq
      simp only [dateLt] at hq hk ⊢
      cases hc : charsLt dp.data di.data
      · rw [charsLt_neg_trans dp.data di.data dj.data hc hk]
        rfl
      · rw [hc] at hq
        cases hq

lemma pairwise_insertIdx_bisect (pivot : Post) {l : List Post}
    (hl : ∀ p ∈ l, p.date.isSome) (hp : l.Pairwise dateKeep) :
    (l.insertIdx (bisect pivot l) pivot).Pairwise dateKeep := by
  obtain ⟨hlow, hhigh⟩ := bisect_spec pivot l (mono_of_pairwise pivot hl hp)
  have hble := bisect_le_length pivot l
  rw [insertIdx_eq_take_drop pivot (bisect pivot l) l hble]
  rw [List.pairwise_append]
  refine ⟨hp.sublist (List.take_sublist _ _), ?_, ?_⟩
  · rw [List.pairwise_cons]
    refine ⟨?_, hp.sublist (List.drop_sublist _ _)⟩
    intro y hy
    obtain ⟨k, hk, hyk⟩ := List.mem_iff_getElem.mp hy
    have hk' : bisect pivot l + k < l.length := by
      have := hk
      simp only [List.length_drop] at this
      omega
    have hq := hhigh (bisect pivot l + k) (by omega) hk'
    rw [getD_eq_getElem_of_lt l dfltPost hk'] at hq
    have hyl : y = l[bisect pivot l + k] := by
      rw [← hyk]
      exact (List.getElem_drop l).symm ▸ rfl
    rw [hyl]
    exact dateKeep_of_cmpIsNeg hq
  · intro x hx y hy
    obtain ⟨k, hk, hxk⟩ := List.mem_iff_getElem.mp hx
    have hkb : k < bisect pivot l := by
      have := hk
      simp only [List.length_take] at this
      omega
    have hkl : k < l.length := by
      have := hk
      simp only [List.length_take] at this
      omega
    have hxl : x = l[k] := by
      rw [← hxk]
      simp
    rcases List.mem_cons.mp hy with rfl | hy'
    · have hq := hlow k hkb
      rw [getD_eq_getElem_of_lt l dfltPost hkl] at hq
      have hlt := dateLt_of_cmpIsNeg_false hq
      rw [hxl]
      unfold dateKeep
      exact dateLt_asymm hlt
    · obtain ⟨m, hm, hym⟩ := List.mem_iff_getElem.mp hy'
      have hm' : bisect pivot l + m < l.length := by
        have := hm
        simp only [List.length_drop] at this
        omega
      have hyl : y = l[bisect pivot l + m] := by
        rw [← hym]
        exact (List.getElem_drop l).symm ▸ rfl
      rw [hxl, hyl]
      exact List.pairwise_iff_getElem.mp hp k (bisect pivot l + m) hkl hm' (by omega)

lemma perm_binaryInsertLoop : ∀ (xs sorted : List Post),
    List.Perm (binaryInsertLoop sorted xs) (sorted ++ xs) := by
  intro xs
  induction xs with
  | nil => intro sorted; simp [binaryInsertLoop]
  | cons x xs ih =>
    intro sorted
    refine (ih _).trans ?_
    refine (List.Perm.append_right xs (perm_insertIdx x (bisect_le_length x sorted))).trans ?_
    exact (@List.perm_middle _ x sorted xs).symm

lemma pairwise_binaryInsertLoop : ∀ (xs sorted : List Post),
    (∀ p ∈ sorted, p.date.isSome) → (∀ p ∈ xs, p.date.isSome) →
    sorted.Pairwise dateKeep → (binaryInsertLoop sorted xs).Pairwise dateKeep := by
  intro xs
  induction xs with
  | nil => intro sorted _ _ hp; exact hp
  | cons x xs ih =>
    intro sorted hs hxs hp
    apply ih
    · intro p hp'
      rcases (List.mem_insertIdx (bisect_le_length x sorted)).mp hp' with rfl | hmem
      · exact hxs p (List.mem_cons_self p xs)
      · exact hs p hmem
    · intro p hp'
      exact hxs p (List.mem_cons_of_mem x hp')
    · exact pairwise_insertIdx_bisect x hs hp

lemma pairwise_sortByDateDesc (l : List Post) (hl : ∀ p ∈ l, p.date.isSome) :
    (sortByDateDesc l).Pairwise dateKeep := by
  apply pairwise_binaryInsertLoop
  · intro p hp
    exact hl p ((countAndMakeRun_perm l).mem_iff.mp (List.mem_append_left _ hp))
  · intro p hp
    exact hl p ((countAndMakeRun_perm l).mem_iff.mp (List.mem_append_right _ hp))
  · exact pairwise_countAndMakeRun l hl

lemma perm_sortByDateDesc (l : List Post) : List.Perm (sortByDateDesc l) l :=
  (perm_binaryInsertLoop (countAndMakeRun l).2 (countAndMakeRun l).1).trans
    (countAndMakeRun_perm l)

lemma getAllPosts_some_of_readPosts {files : List FileEntry} {ps : List Post}
    (h : readPosts files = Except.ok ps) :
    getAllPosts (some files) = Except.ok (sortByDateDesc ps) := by
  have hmap : getAllPosts (some files) = Except.map sortByDateDesc (readPosts files) := rfl
  rw [hmap, h]
  rfl

lemma getPostBySlugS_run (dir : PostsDir) (slug : String) :
    getPostBySlugS slug dir = (getPostBySlug dir slug, dir) := by
  cases dir with
  | none => rfl
  | some files =>
    cases hf : files.find? (fun g => g.name == slug ++ ".md") with
    | none =>
      have hany : files.any (fun g => g.name == slug ++ ".md") = false := by
        rw [List.any_eq_false]
        intro g hg
        simpa using List.find?_eq_none.mp hf g hg
      simp only [getPostBySlugS, existsSyncS, getPostBySlug, hany, hf]
    | some f =>
      have hany : files.any (fun g => g.name == slug ++ ".md") = true := by
        rw [List.any_eq_true]
        have hp := List.find?_some (p := fun g : FileEntry => g.name == slug ++ ".md") hf
        exact ⟨f, List.mem_of_find?_eq_some hf, hp⟩
      simp only [getPostBySlugS, existsSyncS, readFileS, getPostBySlug, hany, hf]
      cases matter f.raw with
      | error e => rfl
      | ok dc => rfl

/-- Two sequential invocations of the stateful getPostBySlug on the same
slug, threading the backing-store state from the first call into the
second and returning both results. -/
def callTwice (slug : String) :
    StateM PostsDir (Except String (Option Post) × Except String (Option Post)) := fun dir =>
  match getPostBySlugS slug dir with
  | (r1, dir1) =>
    match getPostBySlugS slug dir1 with
    | (r2, dir2) => ((r1, r2), dir2)

/-- Concrete content file used by the round-trip property: hello.md with
title "Hello", date "2024-05-01", excerpt "Hi" and body "World". -/
def helloEntry : FileEntry :=
  { name := "hello.md"
    raw := RawContent.wellFormed
      { title := some "Hello", date := some "2024-05-01", excerpt := some "Hi" }
      "World" }

/-- The Post record the round-trip property expects for helloEntry. -/
def helloPost : Post :=
  { slug := "hello", title := some "Hello", date := some "2024-05-01",
    content := "World", excerpt := some "Hi" }

/-- Concrete valid content file a.md. -/
def aEntry : FileEntry :=
  { name := "a.md"
    raw := RawContent.wellFormed
      { title := some "A", date := some "2024-01-01", excerpt := none }
      "body a" }

/-- Concrete valid content file b.md. -/
def bEntry : FileEntry :=
  { name := "b.md"
    raw := RawContent.wellFormed
      { title := some "B", date := some "2024-03-01", excerpt := none }
      "body b" }

/-- Concrete content file whose metadata block is malformed: parsing it
fails. -/
def badEntry : FileEntry :=
  { name := "bad.md", raw := RawContent.malformed "invalid front matter" }

/-- Concrete content file whose metadata block parses but carries no title
key. -/
def noTitleEntry : FileEntry :=
  { name := "untitled.md"
    raw := RawContent.wellFormed
      { title := none, date := some "2024-02-02", excerpt := none }
      "body" }

/-- Concrete directory entry whose name does not end in .md. -/
def txtEntry : FileEntry :=
  { name := "notes.txt"
    raw := RawContent.wellFormed
      { title := some "Notes", date := some "2024-01-01", excerpt := none }
      "plain text body" }

/-- C3: for a backing store containing hello.md with front matter title
"Hello", date "2024-05-01", excerpt "Hi" and body "World", reading the
post (by its slug, and through the listing) yields exactly the record
{slug "hello", title "Hello", date "2024-05-01", excerpt "Hi",
content "World"}. -/
theorem getPostBySlug_hello_roundTrip :
    getPostBySlug (some [helloEntry]) "hello" = Except.ok (some helloPost) ∧
      getAllPosts (some [helloEntry]) = Except.ok [helloPost] :=
  ⟨rfl, rfl⟩

/-- C5: when the backing posts directory does not exist getAllPosts
returns the empty sequence rather than failing, and a directory with zero
files also yields the empty sequence. -/
theorem getAllPosts_empty_store :
    getAllPosts none = Except.ok [] ∧ getAllPosts (some []) = Except.ok [] :=
  ⟨rfl, rfl⟩

/-- C8: getPostBySlug is a deterministic, stateless read: two sequential
calls with the same slug return equal results, and the backing store is
left exactly as it was. -/
theorem getPostBySlug_idempotent (dir : PostsDir) (slug : String) :
    (callTwice slug).run dir = ((getPostBySlug dir slug, getPostBySlug dir slug), dir) := by
  show callTwice slug dir = _
  simp only [callTwice, getPostBySlugS_run]

/-- C10: a directory entry whose name does not end in .md (notes.txt)
appears in getAllPosts with its full name as the slug, while
getPostBySlug on that very slug returns null, because it looks up
notes.txt.md. -/
theorem non_md_entry_disagreement :
    getAllPosts (some [txtEntry]) = Except.ok
      [{ slug := "notes.txt", title := some "Notes", date := some "2024-01-01",
         content := "plain text body", excerpt := none }] ∧
      getPostBySlug (some [txtEntry]) "notes.txt" = Except.ok none :=
  ⟨rfl, rfl⟩

/-- C4: for every slug such that no entry named slug + ".md" exists in the
posts directory (in particular when the directory itself is absent),
getPostBySlug returns the explicit absence marker none inside a successful
result, not an error. -/
theorem getPostBySlug_absent_returns_none (dir : PostsDir) (slug : String)
    (h : ∀ files, dir = some files → ∀ f ∈ files, f.name ≠ slug ++ ".md") :
    getPostBySlug dir slug = Except.ok none := by
  cases dir with
  | none => rfl
  | some files =>
    have hfind : files.find? (fun f => f.name == slug ++ ".md") = none := by
      rw [List.find?_eq_none]
      intro f hf
      simp [h files rfl f hf]
    simp only [getPostBySlug, hfind]

/-- Witness for C4: the store holding only hello.md has no file
missing.md, and getPostBySlug "missing" returns none. -/
theorem getPostBySlug_absent_witness :
    getPostBySlug (some [helloEntry]) "missing" = Except.ok none :=
  getPostBySlug_absent_returns_none (some [helloEntry]) "missing"
    (by
      intro files hfe f hf
      cases Option.some.inj hfe
      rcases List.mem_cons.mp hf with rfl | hf
      · decide
      · cases hf)

/-- C1: for every backing store of N valid content files (each file name
carries the .md extension and each metadata block parses), getAllPosts
returns exactly N Post records, and every record arises from one source
file with its slug equal to that file's name with the extension
removed. -/
theorem getAllPosts_length_slugs (files : List FileEntry)
    (hext : ∀ f ∈ files, ∃ base, f.name = base ++ ".md")
    (hparse : ∀ f ∈ files, ∃ d c, matter f.raw = Except.ok (d, c)) :
    ∃ posts, getAllPosts (some files) = Except.ok posts ∧
      posts.length = files.length ∧
      ∀ p ∈ posts, ∃ f ∈ files, ∃ d c,
        matter f.raw = Except.ok (d, c) ∧
        p = mkPost (stripMd f.name) d c ∧
        p.slug ++ ".md" = f.name := by
  obtain ⟨ps, hps⟩ := readPosts_ok_of_forall hparse
  refine ⟨sortByDateDesc ps, getAllPosts_some_of_readPosts hps, ?_, ?_⟩
  · rw [(perm_sortByDateDesc ps).length_eq]
    exact (readPosts_ok_iff.mp hps).length_eq.symm
  · intro p hp
    have hpmem : p ∈ ps := ((perm_sortByDateDesc ps).mem_iff).mp hp
    obtain ⟨f, hf, d, c, hdc, hpe⟩ :=
      forall₂_exists_right (readPosts_ok_iff.mp hps) p hpmem
    obtain ⟨base, hbase⟩ := hext f hf
    refine ⟨f, hf, d, c, hdc, hpe, ?_⟩
    rw [hpe]
    show stripMd f.name ++ ".md" = f.name
    exact stripMd_name hbase

/-- Witness for C1: a store of the two valid files a.md and b.md yields
exactly two posts with the matching slugs. -/
theorem getAllPosts_length_slugs_witness :
    ∃ posts, getAllPosts (some [aEntry, bEntry]) = Except.ok posts ∧
      posts.length = [aEntry, bEntry].length ∧
      ∀ p ∈ posts, ∃ f ∈ [aEntry, bEntry], ∃ d c,
        matter f.raw = Except.ok (d, c) ∧
        p = mkPost (stripMd f.name) d c ∧
        p.slug ++ ".md" = f.name :=
  getAllPosts_length_slugs [aEntry, bEntry]
    (by
      intro f hf
      rcases List.mem_cons.mp hf with rfl | hf
      · exact ⟨"a", rfl⟩
      rcases List.mem_cons.mp hf with rfl | hf
      · exact ⟨"b", rfl⟩
      · cases hf)
    (by
      intro f hf
      rcases List.mem_cons.mp hf with rfl | hf
      · exact ⟨_, _, rfl⟩
      rcases List.mem_cons.mp hf with rfl | hf
      · exact ⟨_, _, rfl⟩
      · cases hf)

/-- Concrete valid content file jan.md dated 2024-01-01. -/
def janEntry : FileEntry :=
  { name := "jan.md"
    raw := RawContent.wellFormed
      { title := some "Jan", date := some "2024-01-01", excerpt := none }
      "jan body" }

/-- Concrete valid content file mar.md dated 2024-03-01. -/
def marEntry : FileEntry :=
  { name := "mar.md"
    raw := RawContent.wellFormed
      { title := some "Mar", date := some "2024-03-01", excerpt := none }
      "mar body" }

/-- Concrete valid content file dec.md dated 2023-12-31. -/
def decEntry : FileEntry :=
  { name := "dec.md"
    raw := RawContent.wellFormed
      { title := some "Dec", date := some "2023-12-31", excerpt := none }
      "dec body" }

/-- Concrete content file whose metadata parses but carries no date
key. -/
def undatedEntry : FileEntry :=
  { name := "undated.md"
    raw := RawContent.wellFormed
      { title := some "Undated", date := none, excerpt := none }
      "undated body" }

/-- The Post built from janEntry. -/
def janPost : Post :=
  { slug := "jan", title := some "Jan", date := some "2024-01-01",
    content := "jan body", excerpt := none }

/-- The Post built from marEntry. -/
def marPost : Post :=
  { slug := "mar", title := some "Mar", date := some "2024-03-01",
    content := "mar body", excerpt := none }

/-- The Post built from decEntry. -/
def decPost : Post :=
  { slug := "dec", title := some "Dec", date := some "2023-12-31",
    content := "dec body", excerpt := none }

/-- The Post built from undatedEntry; its date field is undefined. -/
def undatedPost : Post :=
  { slug := "undated", title := some "Undated", date := none,
    content := "undated body", excerpt := none }

/-- Counterexample to C2 as stated over every backing-store state: with a
file lacking a date key between two dated files, every comparator call
returns -1 (a.date < b.date is false against the undefined date), so V8's
run detection classifies the whole array [mar, undated, jan] as one
descending run and reverses it.  The returned sequence [jan, undated,
mar] is not sorted by date: the first post's date 2024-01-01 is strictly
below the last post's date 2024-03-01. -/
theorem getAllPosts_unsorted_counterexample :
    getAllPosts (some [marEntry, undatedEntry, janEntry]) =
      Except.ok [janPost, undatedPost, marPost] ∧
      dateLt janPost.date marPost.date = true ∧
      ¬ [janPost, undatedPost, marPost].Pairwise dateKeep :=
  ⟨rfl, rfl, by decide⟩

/-- C2 amended: for every backing-store state whose files all parse and
all carry a date string in their metadata (the data model declares date
required), the sequence getAllPosts returns is pairwise sorted in
descending lexicographic order of the date strings. -/
theorem getAllPosts_sorted_desc (files : List FileEntry)
    (h : ∀ f ∈ files, ∃ d c, matter f.raw = Except.ok (d, c) ∧ d.date.isSome) :
    ∃ posts, getAllPosts (some files) = Except.ok posts ∧
      posts.Pairwise dateKeep := by
  have hparse : ∀ f ∈ files, ∃ d c, matter f.raw = Except.ok (d, c) := fun f hf =>
    (h f hf).imp fun d hd => hd.imp fun c hc => hc.1
  obtain ⟨ps, hps⟩ := readPosts_ok_of_forall hparse
  refine ⟨sortByDateDesc ps, getAllPosts_some_of_readPosts hps, ?_⟩
  apply pairwise_sortByDateDesc
  intro p hp
  obtain ⟨f, hf, d, c, hdc, hpe⟩ :=
    forall₂_exists_right (readPosts_ok_iff.mp hps) p hp
  obtain ⟨d', c', hdc', hds⟩ := h f hf
  rw [hdc] at hdc'
  cases Except.ok.inj hdc'
  rw [hpe]
  exact hds

/-- Witness for C2 (amended): three files dated 2024-01-01, 2024-03-01 and
2023-12-31 come back sorted, and concretely in the order
2024-03-01, 2024-01-01, 2023-12-31. -/
theorem getAllPosts_sorted_desc_witness :
    (∃ posts, getAllPosts (some [janEntry, marEntry, decEntry]) = Except.ok posts ∧
        posts.Pairwise dateKeep) ∧
      getAllPosts (some [janEntry, marEntry, decEntry]) =
        Except.ok [marPost, janPost, decPost] :=
  ⟨getAllPosts_sorted_desc [janEntry, marEntry, decEntry]
      (by
        intro f hf
        rcases List.mem_cons.mp hf with rfl | hf
        · exact ⟨_, _, rfl, rfl⟩
        rcases List.mem_cons.mp hf with rfl | hf
        · exact ⟨_, _, rfl, rfl⟩
        rcases List.mem_cons.mp hf with rfl | hf
        · exact ⟨_, _, rfl, rfl⟩
        · cases hf),
    rfl⟩

/-- Counterexample to C6 as stated: a store containing a file whose
metadata block is malformed makes getAllPosts surface the parse failure to
the caller instead of returning a sequence, because the per-file parse is
not guarded. -/
theorem getAllPosts_malformed_error :
    getAllPosts (some [aEntry, badEntry]) = Except.error "invalid front matter" :=
  rfl

/-- C6 amended: getAllPosts surfaces no error and returns a sequence of
Post records for every backing-store state in which each file's metadata
block parses (missing keys included); a malformed metadata block instead
propagates the parse failure to the caller. -/
theorem getAllPosts_ok_of_parses (dir : PostsDir)
    (h : ∀ files, dir = some files → ∀ f ∈ files,
        ∃ d c, matter f.raw = Except.ok (d, c)) :
    ∃ posts, getAllPosts dir = Except.ok posts := by
  cases dir with
  | none => exact ⟨[], rfl⟩
  | some files =>
    obtain ⟨ps, hps⟩ := readPosts_ok_of_forall (h files rfl)
    exact ⟨sortByDateDesc ps, getAllPosts_some_of_readPosts hps⟩

/-- Witness for C6 (amended): both files of the store parse, and
getAllPosts returns a sequence. -/
theorem getAllPosts_ok_of_parses_witness :
    ∃ posts, getAllPosts (some [aEntry, noTitleEntry]) = Except.ok posts :=
  getAllPosts_ok_of_parses (some [aEntry, noTitleEntry])
    (by
      intro files hfe f hf
      cases Option.some.inj hfe
      rcases List.mem_cons.mp hf with rfl | hf
      · exact ⟨_, _, rfl⟩
      rcases List.mem_cons.mp hf with rfl | hf
      · exact ⟨_, _, rfl⟩
      · cases hf)

/-- The Post built from noTitleEntry; its title field is undefined. -/
def noTitlePost : Post :=
  { slug := "untitled", title := none, date := some "2024-02-02",
    content := "body", excerpt := none }

/-- Counterexample to C7 as stated: a content file whose metadata block
parses but carries no title key yields a Post whose title field is
undefined rather than a string; nothing validates the required keys. -/
theorem post_missing_title_counterexample :
    getAllPosts (some [noTitleEntry]) = Except.ok [noTitlePost] ∧
      noTitlePost.title = none :=
  ⟨rfl, rfl⟩

/-- C7 amended: whenever every file's metadata block parses and contains
both a title and a date key, every Post record either operation produces
carries a title string and a date string sourced from that metadata. -/
theorem posts_title_date_present (dir : PostsDir)
    (h : ∀ files, dir = some files → ∀ f ∈ files,
        ∃ d c, matter f.raw = Except.ok (d, c) ∧ d.title.isSome ∧ d.date.isSome) :
    (∀ posts, getAllPosts dir = Except.ok posts →
        ∀ p ∈ posts, p.title.isSome ∧ p.date.isSome) ∧
      (∀ slug p, getPostBySlug dir slug = Except.ok (some p) →
        p.title.isSome ∧ p.date.isSome) := by
  constructor
  · intro posts hposts p hp
    cases dir with
    | none =>
      cases Except.ok.inj hposts
      cases hp
    | some files =>
      cases hr : readPosts files with
      | error e =>
        have he : getAllPosts (some files) = Except.error e := by
          have hmap : getAllPosts (some files) =
              Except.map sortByDateDesc (readPosts files) := rfl
          rw [hmap, hr]
          rfl
        rw [he] at hposts
        cases hposts
      | ok ps =>
        rw [getAllPosts_some_of_readPosts hr] at hposts
        cases Except.ok.inj hposts
        have hpmem : p ∈ ps := ((perm_sortByDateDesc ps).mem_iff).mp hp
        obtain ⟨f, hf, d, c, hdc, hpe⟩ :=
          forall₂_exists_right (readPosts_ok_iff.mp hr) p hpmem
        obtain ⟨d', c', hdc', ht, hd⟩ := h files rfl f hf
        rw [hdc] at hdc'
        cases Except.ok.inj hdc'
        rw [hpe]
        exact ⟨ht, hd⟩
  · intro slug p hps
    cases dir with
    | none => cases Except.ok.inj hps
    | some files =>
      cases hfind : files.find? (fun g => g.name == slug ++ ".md") with
      | none =>
        have hnone : getPostBySlug (some files) slug = Except.ok none := by
          simp only [getPostBySlug, hfind]
        rw [hnone] at hps
        cases Except.ok.inj hps
      | some f =>
        obtain ⟨d, c, hdc, ht, hd⟩ :=
          h files rfl f (List.mem_of_find?_eq_some hfind)
        have hsome : getPostBySlug (some files) slug =
            Except.ok (some (mkPost slug d c)) := by
          simp only [getPostBySlug, hfind, hdc]
        rw [hsome] at hps
        cases Option.some.inj (Except.ok.inj hps)
        exact ⟨ht, hd⟩

/-- Witness for C7 (amended): the store holding hello.md, whose metadata
carries both keys, yields posts with defined title and date through both
operations. -/
theorem posts_title_date_present_witness :
    (∀ posts, getAllPosts (some [helloEntry]) = Except.ok posts →
        ∀ p ∈ posts, p.title.isSome ∧ p.date.isSome) ∧
      (∀ slug p, getPostBySlug (some [helloEntry]) slug = Except.ok (some p) →
        p.title.isSome ∧ p.date.isSome) :=
  posts_title_date_present (some [helloEntry])
    (by
      intro files hfe f hf
      cases Option.some.inj hfe
      rcases List.mem_cons.mp hf with rfl | hf
      · exact ⟨_, _, rfl, rfl, rfl⟩
      · cases hf)

/-- C9: for every file of the posts directory whose name ends in .md
(with the directory's names pairwise distinct and every file parsing),
getPostBySlug applied to that file's slug returns exactly the Post that
getAllPosts builds for that file, and that Post occurs in the getAllPosts
sequence: the two read operations agree on shared inputs. -/
theorem operations_agree (files : List FileEntry) (f : FileEntry) (base : String)
    (hnd : (files.map FileEntry.name).Nodup)
    (hf : f ∈ files)
    (hname : f.name = base ++ ".md")
    (hparse : ∀ g ∈ files, ∃ d c, matter g.raw = Except.ok (d, c)) :
    ∃ posts d c,
      getAllPosts (some files) = Except.ok posts ∧
      matter f.raw = Except.ok (d, c) ∧
      getPostBySlug (some files) (stripMd f.name) =
        Except.ok (some (mkPost (stripMd f.name) d c)) ∧
      mkPost (stripMd f.name) d c ∈ posts := by
  obtain ⟨d, c, hdc⟩ := hparse f hf
  obtain ⟨ps, hps⟩ := readPosts_ok_of_forall hparse
  refine ⟨sortByDateDesc ps, d, c, getAllPosts_some_of_readPosts hps, hdc, ?_, ?_⟩
  · have hfind : files.find? (fun g => g.name == stripMd f.name ++ ".md") = some f := by
      rw [stripMd_name hname]
      exact find?_name_of_nodup hnd hf
    simp only [getPostBySlug, hfind, hdc]
  · obtain ⟨p, hpmem, d', c', hdc', hpe⟩ :=
      forall₂_exists_left (readPosts_ok_iff.mp hps) f hf
    rw [hdc] at hdc'
    cases Except.ok.inj hdc'
    rw [← hpe]
    exact ((perm_sortByDateDesc ps).mem_iff).mpr hpmem

/-- Witness for C9: in the store of a.md and b.md, getPostBySlug "a"
returns the very record getAllPosts holds for a.md. -/
theorem operations_agree_witness :
    ∃ posts d c,
      getAllPosts (some [aEntry, bEntry]) = Except.ok posts ∧
      matter aEntry.raw = Except.ok (d, c) ∧
      getPostBySlug (some [aEntry, bEntry]) (stripMd aEntry.name) =
        Except.ok (some (mkPost (stripMd aEntry.name) d c)) ∧
      mkPost (stripMd aEntry.name) d c ∈ posts :=
  operations_agree [aEntry, bEntry] aEntry "a"
    (by decide)
    (List.mem_cons_self aEntry [bEntry])
    (by decide)
    (by
      intro g hg
      rcases List.mem_cons.mp hg with rfl | hg
      · exact ⟨_, _, rfl⟩
      rcases List.mem_cons.mp hg with rfl | hg
      · exact ⟨_, _, rfl⟩
      · cases hg)

